import Mathlib

/-!
Shallow embedding of `rules/old_series.go` (package `rules` of the infix
repository): the staleness-detection rule `OldSeriesRule`, its formatters
(`textFormater`, `jsonFormater`), the timestamp renderer `formatTimestamp`,
and the configuration builder `OldSerieRuleConfig.Build`.

Modelling conventions:
- Go `int64` timestamps are modelled as `Int` (comparisons and `max` never
  overflow in the Go code, so no wraparound modelling is needed).
- A `tsm1.Value` is modelled by the only datum the rule reads from it: its
  `UnixNano()` timestamp.
- The external key decoder `tsm1.SeriesAndFieldFromCompositeKey` is an
  abstract parameter `decode`; the rule only uses the series part.
- Go's `string(unixNano)` integer-to-string conversion yields the UTF-8
  encoding of the code point, or U+FFFD when the value is not a valid
  Unicode code point; this is modelled by `goIntToString`.
- `time.Unix(0, n).Format(time.RFC3339)` is modelled under a UTC time zone
  (the zone is ambient state of the process; the spec's concrete test cases
  stipulate UTC) by `rfc3339UTC`, using the standard civil-from-days
  calendar algorithm. `time.RFC3339` carries no fractional-second digits.
- Formatting with an arbitrary non-RFC3339 layout is external Go library
  behaviour; it is an abstract parameter `g` threaded through the
  definitions (no claim depends on that branch).
- A panic (index out of range on an empty value block) is modelled by
  `Option`: `none` is the panic outcome.
- Write errors on the output destination are modelled by an abstract
  write-result argument (`Option String`, the error the destination would
  report); the Go code discards the results of `fmt.Fprintf`/`Fprintln`,
  which is visible in the definitions ignoring that argument.
-/

namespace OldSeriesRules

/-- Go's `string(n)` for an integer `n`: the condition under which the
conversion produces the code point `n` itself rather than U+FFFD. -/
def goValidRune (n : Int) : Prop :=
  0 ≤ n ∧ (n < 0xd800 ∨ (0xdfff < n ∧ n < 0x110000))

instance (n : Int) : Decidable (goValidRune n) := by
  unfold goValidRune; infer_instance

/-- Go's integer-to-string conversion `string(n)`: the single character
with code point `n`, or the replacement character U+FFFD when `n` is not a
valid Unicode code point. -/
def goIntToString (n : Int) : String :=
  if goValidRune n then String.singleton (Char.ofNat n.toNat)
  else String.singleton (Char.ofNat 0xFFFD)

/-- ASCII lower-casing of one character (the fragment of Go's
`strings.EqualFold` simple case folding exercised by ASCII layout names). -/
def lowerAscii (c : Char) : Char :=
  if 'A' ≤ c ∧ c ≤ 'Z' then Char.ofNat (c.toNat + 32) else c

/-- Model of `strings.EqualFold` restricted to ASCII case folding
(faithful on ASCII strings such as layout names). -/
def eqFoldAscii (s t : String) : Bool :=
  s.data.map lowerAscii == t.data.map lowerAscii

/-- Strict lexicographic comparison of character lists by code point: the
order Go's byte-wise string comparison induces on UTF-8 encoded strings
(UTF-8 encoding preserves the code-point order), as an executable
function. -/
def cpLtB : List Char → List Char → Bool
  | [], [] => false
  | [], _ :: _ => true
  | _ :: _, [] => false
  | a :: as, b :: bs =>
    if a.toNat < b.toNat then true
    else if b.toNat < a.toNat then false
    else cpLtB as bs

/-- Reflexive lexicographic comparison of character lists by code point. -/
def cpLeB : List Char → List Char → Bool
  | [], _ => true
  | _ :: _, [] => false
  | a :: as, b :: bs =>
    if a.toNat < b.toNat then true
    else if b.toNat < a.toNat then false
    else cpLeB as bs

/-- The string order `sort.Strings` sorts by (byte-wise ascending, equal to
code-point lexicographic on UTF-8). -/
def strLe (a b : String) : Prop := cpLeB a.data b.data = true

/-- Strict version of `strLe`. -/
def strLt (a b : String) : Prop := cpLtB a.data b.data = true

instance : DecidableRel strLe := fun a b => by unfold strLe; infer_instance

instance : DecidableRel strLt := fun a b => by unfold strLt; infer_instance

/-- Zero-pad the decimal rendering of `n` to at least `w` digits. -/
def padNat (n : Nat) (w : Nat) : String :=
  let s := toString n
  if s.length < w then String.mk (List.replicate (w - s.length) '0') ++ s else s

/-- Two-digit field of a Go time layout (`01`, `02`, `15`, `04`, `05`). -/
def pad2 (n : Nat) : String := padNat n 2

/-- Go's year field `2006`: at least four digits, `-` sign for negatives. -/
def padYear (n : Int) : String :=
  if n < 0 then "-" ++ padNat (-n).toNat 4 else padNat n.toNat 4

/-- Civil date (year, month, day) of a day count relative to 1970-01-01,
the standard era-based calendar algorithm used to model Go's
`time.Time` date computation in UTC. -/
def civilFromDays (z0 : Int) : Int × Int × Int :=
  let z := z0 + 719468
  let era : Int := Int.fdiv z 146097
  let doe : Int := z - era * 146097
  let yoe : Int := Int.fdiv (doe - Int.fdiv doe 1460 + Int.fdiv doe 36524 - Int.fdiv doe 146096) 365
  let y : Int := yoe + era * 400
  let doy : Int := doe - (365 * yoe + Int.fdiv yoe 4 - Int.fdiv yoe 100)
  let mp : Int := Int.fdiv (5 * doy + 2) 153
  let d : Int := doy - Int.fdiv (153 * mp + 2) 5 + 1
  let m : Int := if mp < 10 then mp + 3 else mp - 9
  (if m ≤ 2 then y + 1 else y, m, d)

/-- `time.Unix(0, unixNano).Format(time.RFC3339)` in UTC: second
precision, `Z` zone designator, no fractional seconds (the layout
`2006-01-02T15:04:05Z07:00` has no fractional-second field). -/
def rfc3339UTC (unixNano : Int) : String :=
  let sec := Int.fdiv unixNano 1000000000
  let days := Int.fdiv sec 86400
  let sod := (Int.emod sec 86400).toNat
  let ymd := civilFromDays days
  padYear ymd.1 ++ "-" ++ pad2 ymd.2.1.toNat ++ "-" ++ pad2 ymd.2.2.toNat ++ "T" ++
    pad2 (sod / 3600) ++ ":" ++ pad2 (sod % 3600 / 60) ++ ":" ++ pad2 (sod % 60) ++ "Z"

/-- Drop trailing `0` characters. -/
def trimTrailingZeros (s : String) : String :=
  String.mk ((s.data.reverse.dropWhile (fun c => c = '0')).reverse)

/-- Modelled from the spec: "renders using the standard RFC 3339 timestamp
format at nanosecond precision" — RFC 3339 with the sub-second part of the
nanosecond timestamp rendered as fractional-second digits (trailing zeros
trimmed, the fractional part omitted when zero), in UTC. Used only to
compare the spec's wording against the code's second-precision rendering. -/
def rfc3339NanoSpecUTC (unixNano : Int) : String :=
  let sec := Int.fdiv unixNano 1000000000
  let frac := (Int.emod unixNano 1000000000).toNat
  let days := Int.fdiv sec 86400
  let sod := (Int.emod sec 86400).toNat
  let ymd := civilFromDays days
  let base := padYear ymd.1 ++ "-" ++ pad2 ymd.2.1.toNat ++ "-" ++ pad2 ymd.2.2.toNat ++ "T" ++
    pad2 (sod / 3600) ++ ":" ++ pad2 (sod % 3600 / 60) ++ ":" ++ pad2 (sod % 60)
  if frac = 0 then base ++ "Z"
  else base ++ "." ++ trimTrailingZeros (padNat frac 9) ++ "Z"

/-- `formatTimestamp` from `old_series.go`:
empty layout returns `string(unixNano)`; a layout equal to `"RFC3339"`
under `strings.EqualFold` renders with `time.RFC3339`; any other layout is
rendered by the external Go layout engine `g`. -/
def formatTimestamp (g : Int → String → String) (unixNano : Int) (layout : String) : String :=
  if layout = "" then goIntToString unixNano
  else if eqFoldAscii layout "RFC3339" = true then rfc3339UTC unixNano
  else g unixNano layout

/-- `textFormater` from `old_series.go`. -/
structure TextFormater where
  withTimestamp : Bool
  timestampLayout : String
deriving DecidableEq

/-- The line `textFormater.format` writes via `fmt.Fprintf`. -/
def textLine (g : Int → String → String) (f : TextFormater) (serie : String) (timestamp : Int) :
    String :=
  if f.withTimestamp then serie ++ ": " ++ formatTimestamp g timestamp f.timestampLayout ++ "\n"
  else serie ++ "\n"

/-- `textFormater.format`: writes the line and returns `nil`; the result of
`fmt.Fprintf` (modelled by the write-result argument `wr`) is discarded, so
the returned error is `none` for every destination outcome. -/
def TextFormater.format (g : Int → String → String) (f : TextFormater) (wr : Option String)
    (serie : String) (timestamp : Int) : String × Option String :=
  (textLine g f serie timestamp, none)

/-- One hexadecimal digit, lower case (as `encoding/json` prints). -/
def hexDigit (n : Nat) : Char :=
  if n < 10 then Char.ofNat (48 + n) else Char.ofNat (87 + n)

/-- `encoding/json` escaping of one character in a string value, with the
default HTML escaping of `<`, `>`, `&` in effect. -/
def jsonEscapeChar (c : Char) : String :=
  if c = '"' then "\\\""
  else if c = '\\' then "\\\\"
  else if c = '\n' then "\\n"
  else if c = '\r' then "\\r"
  else if c = '\t' then "\\t"
  else if c.toNat < 0x20 then
    "\\u00" ++ String.singleton (hexDigit (c.toNat / 16)) ++ String.singleton (hexDigit (c.toNat % 16))
  else if c = '<' then "\\u003c"
  else if c = '>' then "\\u003e"
  else if c = '&' then "\\u0026"
  else if c.toNat = 0x2028 then "\\u2028"
  else if c.toNat = 0x2029 then "\\u2029"
  else String.singleton c

/-- A JSON string literal as `encoding/json` produces it. -/
def jsonQuote (s : String) : String :=
  "\"" ++ String.join (s.data.map jsonEscapeChar) ++ "\""

/-- The key order `encoding/json` sorts object fields by. -/
def keyLe (a b : String × String) : Prop := strLe a.1 b.1

instance : DecidableRel keyLe := fun a b => by unfold keyLe; infer_instance

/-- Comma-join of rendered fields, as `encoding/json` writes them. -/
def joinComma : List String → String
  | [] => ""
  | [x] => x
  | x :: xs => x ++ "," ++ joinComma xs

/-- `json.Marshal` of a `map[string]interface{}` whose values are strings:
object fields appear sorted by key, each rendered as a JSON string.  The
argument list carries the (arbitrary) iteration order of the Go map;
marshalling sorts it. -/
def jsonMarshalObject (l : List (String × String)) : String :=
  "\x7b" ++
    joinComma ((List.insertionSort keyLe l).map
      (fun p => jsonQuote p.1 ++ ":" ++ jsonQuote p.2)) ++ "\x7d"

/-- `jsonFormater` from `old_series.go`. -/
structure JsonFormater where
  withTimestamp : Bool
  timestampLayout : String
deriving DecidableEq

/-- The field set `jsonFormater.format` builds (in insertion order). -/
def jsonData (g : Int → String → String) (f : JsonFormater) (serie : String) (timestamp : Int) :
    List (String × String) :=
  if f.withTimestamp then
    [("Serie", serie), ("Timestamp", formatTimestamp g timestamp f.timestampLayout)]
  else [("Serie", serie)]

/-- `jsonFormater.format` / `formatLine`: marshal the field set (total for
string-valued fields, so no error), print the line plus `"\n"`
(`fmt.Fprintln`'s write result `wr` is discarded), return `nil`. -/
def JsonFormater.format (g : Int → String → String) (f : JsonFormater) (wr : Option String)
    (serie : String) (timestamp : Int) : String × Option String :=
  (jsonMarshalObject (jsonData g f serie timestamp) ++ "\n", none)

/-- The closed set of formatter variants selected by `newFormater`. -/
inductive Formater where
  | text (f : TextFormater)
  | json (f : JsonFormater)
deriving DecidableEq

/-- Dispatch of the `formater` interface's `format` capability. -/
def Formater.format (g : Int → String → String) :
    Formater → Option String → String → Int → String × Option String
  | .text f, wr, s, t => TextFormater.format g f wr s t
  | .json f, wr, s, t => JsonFormater.format g f wr s t

/-- `newFormater` from `old_series.go`: the factory over format names. -/
def newFormater (format : String) (withTimestamp : Bool) (timestampLayout : String) :
    Except String Formater :=
  if format = "text" then .ok (.text ⟨withTimestamp, timestampLayout⟩)
  else if format = "json" then .ok (.json ⟨withTimestamp, timestampLayout⟩)
  else .error ("Unknown format " ++ format)

/-- The output destination selected by `OldSerieRuleConfig.Build`. -/
inductive OutDest where
  | stdout
  | stderr
  | file (path : String)
deriving DecidableEq

/-- `OldSeriesRule` from `old_series.go`.  The accumulation map
`series map[string]int64` is modelled as an association list in insertion
order with unique keys (the Go map has unique keys; iteration order is
irrelevant because `End` sorts the keys before use). -/
structure OldSeriesRule where
  unixNano : Int
  out : OutDest
  series : List (String × Int)
  formater : Formater
deriving DecidableEq

/-- `newOldSeriesRule`: `t.UnixNano() / int64(time.Nanosecond)` is the
nanosecond count itself (division by 1), here taken directly as `t`. -/
def newOldSeriesRule (t : Int) (out : OutDest) (f : Formater) : OldSeriesRule :=
  { unixNano := t, out := out, series := [], formater := f }

/-- Lookup in the accumulation map: `ts, ok := r.series[s]`. -/
def lookupTs : List (String × Int) → String → Option Int
  | [], _ => none
  | (k, v) :: rest, s => if k = s then some v else lookupTs rest s

/-- The map update performed by `Apply`: raise the stored value to `maxTs`
when the key is present and `maxTs` is larger, insert `maxTs` otherwise. -/
def updateTs : List (String × Int) → String → Int → List (String × Int)
  | [], s, t => [(s, t)]
  | (k, v) :: rest, s, t =>
    if k = s then (k, if t > v then t else v) :: rest
    else (k, v) :: updateTs rest s t

/-- The triple `Apply` returns: `(newKey, newValues, error)`. -/
abbrev ApplyResult := Option String × Option (List Int) × Option String

/-- `OldSeriesRule.Apply`: decode the composite key, read the timestamp of
the last element of `values` (`values[len(values)-1]`, a panic — `none` —
on an empty block), accumulate it, and return `(nil, nil, nil)`. -/
def OldSeriesRule.Apply (decode : String → String) (r : OldSeriesRule) (key : String)
    (values : List Int) : Option (OldSeriesRule × ApplyResult) :=
  match values.getLast? with
  | none => none
  | some maxTs =>
    some ({ r with series := updateTs r.series (decode key) maxTs }, (none, none, none))

/-- A sequence of `Apply` calls, one per decoded key/value block. -/
def applyBlocks (decode : String → String) :
    OldSeriesRule → List (String × List Int) → Option OldSeriesRule
  | r, [] => some r
  | r, (k, vs) :: bs =>
    match r.Apply decode k vs with
    | none => none
    | some (r', _) => applyBlocks decode r' bs

/-- Everything `End` produces: the reported (series, timestamp) pairs in
report order, the bytes written to the output destination, the two counts,
and the text of the summary log line (which goes to the logger, a separate
sink from `outText`). -/
structure EndReport where
  emitted : List (String × Int)
  outText : String
  count : Nat
  total : Nat
  logLine : String
deriving DecidableEq

/-- The key sequence `End` builds and sorts: `sort.Strings` is ascending
byte-lexicographic order, which on UTF-8 agrees with the code-point
lexicographic order of Lean's `String` order. -/
def endKeys (r : OldSeriesRule) : List String :=
  List.insertionSort strLe (r.series.map Prod.fst)

/-- The body of `End`'s report loop for one key: the (series, timestamp)
pair it reports when `maxTs <= r.unixNano`, nothing otherwise. -/
def endEntry (r : OldSeriesRule) (k : String) : Option (String × Int) :=
  match lookupTs r.series k with
  | some t => if t ≤ r.unixNano then some (k, t) else none
  | none => none

/-- `OldSeriesRule.End`: sort the accumulated keys ascending, emit every
series whose accumulated timestamp is at most the threshold through the
formatter (write results `wr` discarded), count them, and log
`"Detected %d/%d series as old"`. -/
def OldSeriesRule.End (g : Int → String → String) (wr : Nat → Option String)
    (r : OldSeriesRule) : EndReport :=
  let keys := endKeys r
  let emitted := keys.filterMap (endEntry r)
  { emitted := emitted
    outText := String.join (emitted.enum.map
      (fun p => (Formater.format g r.formater (wr p.1) p.2.1 p.2.2).1))
    count := emitted.length
    total := keys.length
    logLine := "Detected " ++ toString emitted.length ++ "/" ++ toString keys.length ++
      " series as old" }

/-- `OldSerieRuleConfig` from `old_series.go`. -/
structure OldSerieRuleConfig where
  Time : String
  Out : String
  Format : String
  Timestamp : Bool
  TimestampLayout : String

/-- The output-destination selection in `Build`: `""` and `"stdout"` map to
standard output, `"stderr"` to standard error, anything else to
`os.Create` (whose outcome is the external parameter `createFile`). -/
def outSelect (createFile : String → Except String Unit) (o : String) : Except String OutDest :=
  if o = "" then .ok .stdout
  else if o = "stdout" then .ok .stdout
  else if o = "stderr" then .ok .stderr
  else
    match createFile o with
    | .error e => .error e
    | .ok _ => .ok (.file o)

/-- `OldSerieRuleConfig.Build`: parse the time (external RFC 3339 parser
`parseTime`, returning the parsed time's `UnixNano`), select the output
destination, default the format name to `"text"` when empty, build the
formatter (failing fast on an unknown name), and construct the rule. -/
def OldSerieRuleConfig.Build (parseTime : String → Except String Int)
    (createFile : String → Except String Unit) (c : OldSerieRuleConfig) :
    Except String OldSeriesRule :=
  match parseTime c.Time with
  | .error e => .error e
  | .ok t =>
    match outSelect createFile c.Out with
    | .error e => .error e
    | .ok out =>
      match newFormater (if c.Format ≠ "" then c.Format else "text")
          c.Timestamp c.TimestampLayout with
      | .error e => .error e
      | .ok f => .ok (newOldSeriesRule t out f)

/-! ### Derived notions used to state the claims -/

/-- The value `Apply` stores for a key: the candidate merged into what was
already there. -/
def combOne (o : Option Int) (t : Int) : Int :=
  match o with
  | none => t
  | some v => max v t

/-- Merge of two optional accumulated maxima. -/
def optComb (a b : Option Int) : Option Int :=
  match a, b with
  | none, b => b
  | some v, none => some v
  | some v, some w => some (max v w)

/-- Maximum of a list of timestamps (`none` for the empty list). -/
def listMaxOpt : List Int → Option Int
  | [] => none
  | t :: ts =>
    match listMaxOpt ts with
    | none => some t
    | some m => some (max t m)

/-- The candidate maxima a block list contributes to series `S`: the last
timestamp of every block whose key decodes to `S`. -/
def candTs (decode : String → String) (bs : List (String × List Int)) (S : String) : List Int :=
  bs.filterMap (fun b => if decode b.1 = S then b.2.getLast? else none)

/-! ### The code-point order: basic facts and agreement with `String`'s
order (`sort.Strings` compares byte-wise, which on UTF-8 encoded strings is
exactly the code-point lexicographic order). -/

theorem charLt_iff (a b : Char) : a < b ↔ a.toNat < b.toNat := by
  rw [Char.lt_def, UInt32.lt_def, BitVec.lt_def]
  exact Iff.rfl

theorem char_toNat_inj {a b : Char} (h : a.toNat = b.toNat) : a = b :=
  Char.ext (UInt32.ext h)

theorem cpLeB_total : ∀ x y : List Char, cpLeB x y = true ∨ cpLeB y x = true := by
  intro x
  induction x with
  | nil => exact fun y => Or.inl rfl
  | cons a as ih =>
    intro y
    cases y with
    | nil => exact Or.inr rfl
    | cons b bs =>
      by_cases h1 : a.toNat < b.toNat
      · left
        simp [cpLeB, h1]
      · by_cases h2 : b.toNat < a.toNat
        · right
          simp [cpLeB, h1, h2]
        · rcases ih bs with h | h
          · left
            simp [cpLeB, h1, h2, h]
          · right
            simp [cpLeB, h1, h2, h]

theorem cpLeB_trans : ∀ x y z : List Char,
    cpLeB x y = true → cpLeB y z = true → cpLeB x z = true := by
  intro x
  induction x with
  | nil => intro y z _ _; rfl
  | cons a as ih =>
    intro y z hxy hyz
    cases y with
    | nil => simp [cpLeB] at hxy
    | cons b bs =>
      cases z with
      | nil => simp [cpLeB] at hyz
      | cons c cs =>
        simp only [cpLeB] at hxy hyz ⊢
        by_cases hac : a.toNat < c.toNat
        · rw [if_pos hac]
        · by_cases hca : c.toNat < a.toNat
          · exfalso
            by_cases hab : a.toNat < b.toNat
            · by_cases hbc : b.toNat < c.toNat
              · omega
              · by_cases hcb : c.toNat < b.toNat
                · rw [if_neg hbc, if_pos hcb] at hyz
                  exact Bool.noConfusion hyz
                · omega
            · by_cases hba : b.toNat < a.toNat
              · rw [if_neg hab, if_pos hba] at hxy
                exact Bool.noConfusion hxy
              · by_cases hbc : b.toNat < c.toNat
                · omega
                · by_cases hcb : c.toNat < b.toNat
                  · rw [if_neg hbc, if_pos hcb] at hyz
                    exact Bool.noConfusion hyz
                  · omega
          · rw [if_neg hac, if_neg hca]
            by_cases hab : a.toNat < b.toNat
            · by_cases hbc : b.toNat < c.toNat
              · omega
              · by_cases hcb : c.toNat < b.toNat
                · rw [if_neg hbc, if_pos hcb] at hyz
                  exact Bool.noConfusion hyz
                · omega
            · by_cases hba : b.toNat < a.toNat
              · rw [if_neg hab, if_pos hba] at hxy
                exact Bool.noConfusion hxy
              · by_cases hbc : b.toNat < c.toNat
                · omega
                · by_cases hcb : c.toNat < b.toNat
                  · rw [if_neg hbc, if_pos hcb] at hyz
                    exact Bool.noConfusion hyz
                  · rw [if_neg hab, if_neg hba] at hxy
                    rw [if_neg hbc, if_neg hcb] at hyz
                    exact ih bs cs hxy hyz

instance : IsTotal String strLe := ⟨fun a b => cpLeB_total a.data b.data⟩

instance : IsTrans String strLe := ⟨fun a b c hab hbc => cpLeB_trans a.data b.data c.data hab hbc⟩

theorem cpLtB_of_cpLeB_of_ne : ∀ x y : List Char,
    cpLeB x y = true → x ≠ y → cpLtB x y = true := by
  intro x
  induction x with
  | nil =>
    intro y _ hne
    cases y with
    | nil => exact absurd rfl hne
    | cons b bs => rfl
  | cons a as ih =>
    intro y hle hne
    cases y with
    | nil => simp [cpLeB] at hle
    | cons b bs =>
      simp only [cpLeB] at hle
      simp only [cpLtB]
      by_cases h1 : a.toNat < b.toNat
      · rw [if_pos h1]
      · by_cases h2 : b.toNat < a.toNat
        · rw [if_neg h1, if_pos h2] at hle
          exact Bool.noConfusion hle
        · rw [if_neg h1, if_neg h2] at hle
          rw [if_neg h1, if_neg h2]
          have hab : a = b := char_toNat_inj (by omega)
          subst hab
          exact ih bs hle (fun hc => hne (by rw [hc]))

theorem cpLtB_iff_lex : ∀ x y : List Char, cpLtB x y = true ↔ List.Lex (· < ·) x y := by
  intro x
  induction x with
  | nil =>
    intro y
    cases y with
    | nil =>
      constructor
      · intro h; exact Bool.noConfusion h
      · intro h; exact absurd h (List.Lex.not_nil_right _ _)
    | cons b bs => exact iff_of_true rfl (List.Lex.nil)
  | cons a as ih =>
    intro y
    cases y with
    | nil =>
      constructor
      · intro h; exact Bool.noConfusion h
      · intro h; exact absurd h (List.Lex.not_nil_right _ _)
    | cons b bs =>
      simp only [cpLtB]
      by_cases h1 : a.toNat < b.toNat
      · rw [if_pos h1]
        exact iff_of_true rfl (List.Lex.rel ((charLt_iff a b).2 h1))
      · by_cases h2 : b.toNat < a.toNat
        · rw [if_neg h1, if_pos h2]
          constructor
          · intro h; exact Bool.noConfusion h
          · intro h
            cases h with
            | rel hr => exact absurd ((charLt_iff a b).1 hr) h1
            | cons hl => omega
        · rw [if_neg h1, if_neg h2]
          have hab : a = b := char_toNat_inj (by omega)
          subst hab
          rw [List.Lex.cons_iff]
          exact ih bs

/-- `strLt` is the order `String` carries in this development: Go's
byte-wise comparison of UTF-8 strings coincides with the code-point
lexicographic comparison. -/
theorem strLt_iff_lt (a b : String) : strLt a b ↔ a < b := by
  unfold strLt
  rw [cpLtB_iff_lex]
  exact (String.lt_iff_toList_lt).symm

/-! ### Accumulation-map lemmas -/

theorem lookupTs_updateTs_self (l : List (String × Int)) (s : String) (t : Int) :
    lookupTs (updateTs l s t) s = some (combOne (lookupTs l s) t) := by
  induction l with
  | nil => simp [updateTs, lookupTs, combOne]
  | cons p rest ih =>
    obtain ⟨k, v⟩ := p
    by_cases hk : k = s
    · subst hk
      rw [show updateTs ((k, v) :: rest) k t = (k, if t > v then t else v) :: rest from by
        simp [updateTs]]
      rw [show lookupTs ((k, if t > v then t else v) :: rest) k
          = some (if t > v then t else v) from by simp [lookupTs]]
      rw [show lookupTs ((k, v) :: rest) k = some v from by simp [lookupTs]]
      simp only [combOne]
      congr 1
      rw [max_def]
      split <;> split <;> omega
    · rw [show updateTs ((k, v) :: rest) s t = (k, v) :: updateTs rest s t from by
        simp [updateTs, hk]]
      rw [show lookupTs ((k, v) :: updateTs rest s t) s = lookupTs (updateTs rest s t) s from by
        simp [lookupTs, hk]]
      rw [show lookupTs ((k, v) :: rest) s = lookupTs rest s from by simp [lookupTs, hk]]
      exact ih

theorem lookupTs_updateTs_ne (l : List (String × Int)) (s s' : String) (t : Int)
    (h : s' ≠ s) : lookupTs (updateTs l s t) s' = lookupTs l s' := by
  induction l with
  | nil => simp [updateTs, lookupTs, Ne.symm h]
  | cons p rest ih =>
    obtain ⟨k, v⟩ := p
    by_cases hk : k = s
    · subst hk
      simp [updateTs, lookupTs, Ne.symm h]
    · by_cases hk' : k = s'
      · simp [updateTs, lookupTs, hk, hk', h]
      · simp [updateTs, lookupTs, hk, hk', ih]

theorem keys_updateTs (l : List (String × Int)) (s : String) (t : Int) :
    (updateTs l s t).map Prod.fst =
      if s ∈ l.map Prod.fst then l.map Prod.fst else l.map Prod.fst ++ [s] := by
  induction l with
  | nil => simp [updateTs]
  | cons p rest ih =>
    obtain ⟨k, v⟩ := p
    by_cases hk : k = s
    · subst hk
      simp [updateTs]
    · simp only [updateTs, if_neg hk, List.map_cons, ih, List.mem_cons]
      by_cases hm : s ∈ rest.map Prod.fst
      · simp [hm]
      · simp [hm, Ne.symm hk]

theorem lookupTs_eq_none_iff (l : List (String × Int)) (s : String) :
    lookupTs l s = none ↔ s ∉ l.map Prod.fst := by
  induction l with
  | nil => simp [lookupTs]
  | cons p rest ih =>
    obtain ⟨k, v⟩ := p
    by_cases hk : k = s
    · subst hk; simp [lookupTs]
    · simp [lookupTs, hk, ih, Ne.symm hk]

theorem nodup_keys_updateTs (l : List (String × Int)) (s : String) (t : Int)
    (h : (l.map Prod.fst).Nodup) : ((updateTs l s t).map Prod.fst).Nodup := by
  rw [keys_updateTs]
  by_cases hm : s ∈ l.map Prod.fst
  · rw [if_pos hm]; exact h
  · rw [if_neg hm]
    refine List.Nodup.append h (List.nodup_singleton s) ?_
    intro a ha hb
    rw [List.mem_singleton] at hb
    subst hb
    exact hm ha

theorem toFinset_keys_updateTs (l : List (String × Int)) (s : String) (t : Int) :
    ((updateTs l s t).map Prod.fst).toFinset = insert s (l.map Prod.fst).toFinset := by
  rw [keys_updateTs]
  by_cases hm : s ∈ l.map Prod.fst
  · rw [if_pos hm]
    exact (Finset.insert_eq_self.2 (List.mem_toFinset.2 hm)).symm
  · rw [if_neg hm, List.toFinset_append,
      show ([s] : List String).toFinset = {s} from by simp,
      Finset.union_comm, ← Finset.insert_eq]

theorem lookupTs_eq_some_of_mem (l : List (String × Int)) (s : String) (v : Int)
    (hnd : (l.map Prod.fst).Nodup) (hm : (s, v) ∈ l) : lookupTs l s = some v := by
  induction l with
  | nil => simp at hm
  | cons p rest ih =>
    obtain ⟨k, w⟩ := p
    rw [List.map_cons, List.nodup_cons] at hnd
    rcases List.mem_cons.1 hm with h | h
    · injection h with hk hv
      subst hk
      subst hv
      simp [lookupTs]
    · have hks : ¬ k = s := by
        intro hc
        subst hc
        exact hnd.1 (List.mem_map.2 ⟨(k, v), h, rfl⟩)
      rw [show lookupTs ((k, w) :: rest) s = lookupTs rest s from by simp [lookupTs, hks]]
      exact ih hnd.2 h

theorem mem_of_lookupTs_eq_some (l : List (String × Int)) (s : String) (v : Int)
    (h : lookupTs l s = some v) : (s, v) ∈ l := by
  induction l with
  | nil => simp [lookupTs] at h
  | cons p rest ih =>
    obtain ⟨k, w⟩ := p
    by_cases hk : k = s
    · subst hk
      rw [show lookupTs ((k, w) :: rest) k = some w from by simp [lookupTs]] at h
      injection h with hv
      subst hv
      exact List.mem_cons_self _ _
    · rw [show lookupTs ((k, w) :: rest) s = lookupTs rest s from by simp [lookupTs, hk]] at h
      exact List.mem_cons_of_mem _ (ih h)

/-! ### The accumulation performed by a sequence of `Apply` calls -/

theorem applyBlocks_cons (decode : String → String) (r : OldSeriesRule) (k : String)
    (vs : List Int) (bs : List (String × List Int)) :
    applyBlocks decode r ((k, vs) :: bs) =
      match vs.getLast? with
      | none => none
      | some m => applyBlocks decode { r with series := updateTs r.series (decode k) m } bs := by
  cases hl : vs.getLast? <;> simp [applyBlocks, OldSeriesRule.Apply, hl]

theorem candTs_cons_pos (decode : String → String) (k : String) (vs : List Int)
    (bs : List (String × List Int)) (S : String) (m : Int)
    (hS : decode k = S) (hl : vs.getLast? = some m) :
    candTs decode ((k, vs) :: bs) S = m :: candTs decode bs S := by
  simp [candTs, List.filterMap_cons, hS, hl]

theorem candTs_cons_neg (decode : String → String) (k : String) (vs : List Int)
    (bs : List (String × List Int)) (S : String) (hS : ¬ decode k = S) :
    candTs decode ((k, vs) :: bs) S = candTs decode bs S := by
  simp [candTs, List.filterMap_cons, hS]

theorem optComb_combOne (o : Option Int) (m : Int) (ts : List Int) :
    optComb (some (combOne o m)) (listMaxOpt ts) = optComb o (listMaxOpt (m :: ts)) := by
  cases o <;> cases hts : listMaxOpt ts <;>
    simp [optComb, combOne, listMaxOpt, hts, max_assoc]

/-- Everything one induction over the block list yields about the state of
the rule after a run of `Apply` calls: the construction parameters are
untouched; the accumulated value of every series is the merge of its old
value with the maximum candidate contributed by the blocks; key uniqueness
is preserved; and the key set grows by exactly the decoded series of the
blocks. -/
theorem applyBlocks_spec (decode : String → String) :
    ∀ (bs : List (String × List Int)) (r r' : OldSeriesRule),
      applyBlocks decode r bs = some r' →
      r'.unixNano = r.unixNano ∧ r'.out = r.out ∧ r'.formater = r.formater ∧
      (∀ S, lookupTs r'.series S =
        optComb (lookupTs r.series S) (listMaxOpt (candTs decode bs S))) ∧
      ((r.series.map Prod.fst).Nodup → (r'.series.map Prod.fst).Nodup) ∧
      (r'.series.map Prod.fst).toFinset =
        (r.series.map Prod.fst).toFinset ∪ (bs.map (fun b => decode b.1)).toFinset := by
  intro bs
  induction bs with
  | nil =>
    intro r r' h
    rw [applyBlocks] at h
    injection h with h
    subst h
    refine ⟨rfl, rfl, rfl, fun S => ?_, id, by simp [candTs]⟩
    cases lookupTs r.series S <;> simp [optComb, candTs, listMaxOpt]
  | cons b bs ih =>
    obtain ⟨k, vs⟩ := b
    intro r r' h
    rw [applyBlocks_cons] at h
    cases hl : vs.getLast? with
    | none => rw [hl] at h; exact absurd h (by simp)
    | some m =>
      rw [hl] at h
      obtain ⟨h1, h2, h3, h4, h5, h6⟩ :=
        ih { r with series := updateTs r.series (decode k) m } r' h
      refine ⟨h1, h2, h3, fun S => ?_, fun hnd => h5 (nodup_keys_updateTs _ _ _ hnd), ?_⟩
      · by_cases hS : decode k = S
        · rw [candTs_cons_pos decode k vs bs S m hS hl, h4 S]
          simp only
          rw [hS, lookupTs_updateTs_self]
          exact optComb_combOne _ m _
        · rw [candTs_cons_neg decode k vs bs S hS, h4 S]
          simp only
          rw [lookupTs_updateTs_ne _ _ _ _ (Ne.symm hS)]
      · rw [h6]
        simp only
        rw [toFinset_keys_updateTs, List.map_cons, List.toFinset_cons,
          Finset.insert_union, Finset.union_insert]

/-- With every block non-empty, no `Apply` call panics, so the whole run
completes. -/
theorem applyBlocks_total (decode : String → String) :
    ∀ (bs : List (String × List Int)) (r : OldSeriesRule), (∀ b ∈ bs, b.2 ≠ []) →
      ∃ r', applyBlocks decode r bs = some r' := by
  intro bs
  induction bs with
  | nil => exact fun r _ => ⟨r, rfl⟩
  | cons b bs ih =>
    obtain ⟨k, vs⟩ := b
    intro r h
    have hvs : vs ≠ [] := h (k, vs) (List.mem_cons_self _ _)
    cases hl : vs.getLast? with
    | none => exact absurd (List.getLast?_eq_none_iff.1 hl) hvs
    | some m =>
      obtain ⟨r', hr⟩ := ih { r with series := updateTs r.series (decode k) m }
        (fun b hb => h b (List.mem_cons_of_mem _ hb))
      refine ⟨r', ?_⟩
      rw [applyBlocks_cons, hl]
      exact hr

/-- `Apply` on a non-empty block, as an equation: accumulate the last
timestamp under the decoded series key and return `(nil, nil, nil)`. -/
theorem apply_eq (decode : String → String) (r : OldSeriesRule) (key : String)
    (vs : List Int) (m : Int) (hl : vs.getLast? = some m) :
    r.Apply decode key vs =
      some ({ r with series := updateTs r.series (decode key) m }, (none, none, none)) := by
  unfold OldSeriesRule.Apply
  rw [hl]

/-! ### The terminal report -/

theorem endEntry_eq_some (r : OldSeriesRule) (a S : String) (t : Int) :
    endEntry r a = some (S, t) ↔
      a = S ∧ lookupTs r.series S = some t ∧ t ≤ r.unixNano := by
  unfold endEntry
  cases hl : lookupTs r.series a with
  | none =>
    constructor
    · intro h; cases h
    · rintro ⟨ha, hlk, _⟩
      subst ha
      rw [hl] at hlk
      cases hlk
  | some v =>
    show (if v ≤ r.unixNano then some (a, v) else none) = some (S, t) ↔
      a = S ∧ lookupTs r.series S = some t ∧ t ≤ r.unixNano
    by_cases hle : v ≤ r.unixNano
    · rw [if_pos hle]
      constructor
      · intro h
        injection h with h
        injection h with h1 h2
        subst h1
        subst h2
        exact ⟨rfl, hl, hle⟩
      · rintro ⟨ha, hlk, _⟩
        subst ha
        rw [hl] at hlk
        injection hlk with hv
        subst hv
        rfl
    · rw [if_neg hle]
      constructor
      · intro h; cases h
      · rintro ⟨ha, hlk, hle'⟩
        subst ha
        rw [hl] at hlk
        injection hlk with hv
        subst hv
        exact absurd hle' hle

theorem endEntry_fst (r : OldSeriesRule) (a : String) (p : String × Int)
    (h : endEntry r a = some p) : p.1 = a := by
  obtain ⟨x, y⟩ := p
  exact ((endEntry_eq_some r a x y).1 h).1.symm

theorem filterMap_endEntry_map_fst (r : OldSeriesRule) (keys : List String) :
    (keys.filterMap (endEntry r)).map Prod.fst
      = keys.filter (fun k => (endEntry r k).isSome) := by
  induction keys with
  | nil => rfl
  | cons a keys ih =>
    cases he : endEntry r a with
    | none => simp [List.filterMap_cons, List.filter_cons, he, ih]
    | some p => simp [List.filterMap_cons, List.filter_cons, he, ih, endEntry_fst r a p he]

theorem mem_end_emitted_iff (g : Int → String → String) (wr : Nat → Option String)
    (r : OldSeriesRule) (S : String) (t : Int) :
    (S, t) ∈ (r.End g wr).emitted ↔
      lookupTs r.series S = some t ∧ t ≤ r.unixNano := by
  show (S, t) ∈ (endKeys r).filterMap (endEntry r) ↔ _
  rw [List.mem_filterMap]
  constructor
  · rintro ⟨a, _, ha⟩
    obtain ⟨haS, h⟩ := (endEntry_eq_some r a S t).1 ha
    exact h
  · rintro ⟨hlk, hle⟩
    refine ⟨S, ?_, (endEntry_eq_some r S S t).2 ⟨rfl, hlk, hle⟩⟩
    have hmem : S ∈ r.series.map Prod.fst := by
      by_contra hc
      rw [← lookupTs_eq_none_iff] at hc
      rw [hc] at hlk
      cases hlk
    exact ((List.perm_insertionSort _ _).mem_iff).2 hmem

theorem end_emitted_sorted (g : Int → String → String) (wr : Nat → Option String)
    (r : OldSeriesRule) (hnd : (r.series.map Prod.fst).Nodup) :
    ((r.End g wr).emitted.map Prod.fst).Sorted (· < ·) := by
  have hkeysnd : (endKeys r).Nodup := ((List.perm_insertionSort _ _).nodup_iff).2 hnd
  have hsorted : (endKeys r).Sorted strLe := List.sorted_insertionSort strLe _
  have hslt : (endKeys r).Sorted strLt :=
    List.Pairwise.imp₂ (fun a b hle hne =>
      cpLtB_of_cpLeB_of_ne a.data b.data hle
        (fun hc => hne (String.toList_inj.1 hc))) hsorted hkeysnd
  have hlt : (endKeys r).Sorted (· < ·) :=
    hslt.imp (fun h => (strLt_iff_lt _ _).1 h)
  show (((endKeys r).filterMap (endEntry r)).map Prod.fst).Sorted (· < ·)
  rw [filterMap_endEntry_map_fst]
  exact List.Pairwise.filter _ hlt

theorem endEntry_isSome (r : OldSeriesRule) (k : String) :
    (endEntry r k).isSome =
      (match lookupTs r.series k with
       | some t => decide (t ≤ r.unixNano)
       | none => false) := by
  unfold endEntry
  cases lookupTs r.series k with
  | none => rfl
  | some v =>
    show (if v ≤ r.unixNano then some (k, v) else none).isSome = decide (v ≤ r.unixNano)
    by_cases hle : v ≤ r.unixNano
    · rw [if_pos hle]
      simp [hle]
    · rw [if_neg hle]
      simp [hle]

theorem countP_lookup (u : Int) :
    ∀ l : List (String × Int), (l.map Prod.fst).Nodup →
      (l.map Prod.fst).countP (fun k =>
          match lookupTs l k with
          | some t => decide (t ≤ u)
          | none => false)
        = (l.filter (fun p => decide (p.2 ≤ u))).length := by
  intro l
  induction l with
  | nil => intro _; rfl
  | cons p rest ih =>
    obtain ⟨k, v⟩ := p
    intro hnd
    rw [List.map_cons, List.nodup_cons] at hnd
    rw [List.map_cons, List.countP_cons]
    have hne : ∀ a ∈ rest.map Prod.fst, ¬ k = a := by
      intro a ha hc
      subst hc
      exact hnd.1 ha
    have hcongr :
        (rest.map Prod.fst).countP (fun s =>
            match lookupTs ((k, v) :: rest) s with
            | some t => decide (t ≤ u)
            | none => false)
          = (rest.map Prod.fst).countP (fun s =>
              match lookupTs rest s with
              | some t => decide (t ≤ u)
              | none => false) :=
      List.Perm.countP_congr (List.Perm.refl _) (fun a ha => by
        rw [show lookupTs ((k, v) :: rest) a = lookupTs rest a from by
          simp [lookupTs, hne a ha]])
    rw [hcongr, ih hnd.2]
    rw [show lookupTs ((k, v) :: rest) k = some v from by simp [lookupTs]]
    rw [List.filter_cons]
    by_cases hv : v ≤ u
    · simp [hv, Nat.add_comm]
    · simp [hv]

theorem end_count (g : Int → String → String) (wr : Nat → Option String)
    (r : OldSeriesRule) (hnd : (r.series.map Prod.fst).Nodup) :
    (r.End g wr).count = (r.series.filter (fun p => decide (p.2 ≤ r.unixNano))).length := by
  show ((endKeys r).filterMap (endEntry r)).length = _
  rw [← List.length_map _ Prod.fst, filterMap_endEntry_map_fst,
    ← List.countP_eq_length_filter]
  unfold endKeys
  rw [List.Perm.countP_eq _ (List.perm_insertionSort _ _)]
  rw [show (fun k => (endEntry r k).isSome)
      = (fun k => match lookupTs r.series k with
         | some t => decide (t ≤ r.unixNano)
         | none => false) from funext (endEntry_isSome r)]
  exact countP_lookup r.unixNano r.series hnd

theorem end_total (g : Int → String → String) (wr : Nat → Option String)
    (r : OldSeriesRule) : (r.End g wr).total = r.series.length := by
  show (endKeys r).length = _
  unfold endKeys
  rw [(List.perm_insertionSort _ _).length_eq, List.length_map]

theorem end_logLine (g : Int → String → String) (wr : Nat → Option String)
    (r : OldSeriesRule) :
    (r.End g wr).logLine =
      "Detected " ++ toString (r.End g wr).count ++ "/" ++ toString (r.End g wr).total ++
        " series as old" :=
  rfl

theorem end_outText (g : Int → String → String) (wr : Nat → Option String)
    (r : OldSeriesRule) :
    (r.End g wr).outText = String.join ((r.End g wr).emitted.enum.map
      (fun p => (Formater.format g r.formater (wr p.1) p.2.1 p.2.2).1)) :=
  rfl

/-! ### The claims -/

/-- C1: per-series monotonic accumulation — starting from a fresh rule, a
run of `Apply` calls over blocks (in any order) whose value blocks are
non-empty leaves, for every series `S`, exactly the maximum of the
candidate maxima (the last timestamps of the blocks decoding to `S`)
stored in the accumulation map, and no single `Apply` call ever lowers the
stored value of any series. -/
theorem series_accumulation_max (decode : String → String)
    (bs : List (String × List Int)) (S : String) (thr : Int) (o : OutDest) (F : Formater)
    (h : ∀ b ∈ bs, b.2 ≠ []) :
    (∃ r', applyBlocks decode (newOldSeriesRule thr o F) bs = some r' ∧
      lookupTs r'.series S = listMaxOpt (candTs decode bs S)) ∧
    (∀ (r : OldSeriesRule) (key : String) (vs : List Int) (r' : OldSeriesRule)
        (res : ApplyResult), r.Apply decode key vs = some (r', res) →
      ∀ v, lookupTs r.series S = some v →
        ∃ v', lookupTs r'.series S = some v' ∧ v ≤ v') := by
  constructor
  · obtain ⟨r', hr⟩ := applyBlocks_total decode bs (newOldSeriesRule thr o F) h
    refine ⟨r', hr, ?_⟩
    obtain ⟨-, -, -, h4, -, -⟩ := applyBlocks_spec decode bs _ r' hr
    rw [h4 S]
    rw [show lookupTs (newOldSeriesRule thr o F).series S = none from rfl]
    cases listMaxOpt (candTs decode bs S) <;> rfl
  · intro r key vs r' res hap v hv
    cases hl : vs.getLast? with
    | none =>
      unfold OldSeriesRule.Apply at hap
      rw [hl] at hap
      exact Option.noConfusion hap
    | some m =>
      rw [apply_eq decode r key vs m hl] at hap
      injection hap with hap
      injection hap with h1 h2
      subst h1
      by_cases hS : decode key = S
      · subst hS
        refine ⟨combOne (lookupTs r.series (decode key)) m, lookupTs_updateTs_self _ _ _, ?_⟩
        rw [hv]
        exact le_max_left v m
      · refine ⟨v, ?_, le_refl v⟩
        rw [lookupTs_updateTs_ne _ _ _ _ (Ne.symm hS)]
        exact hv

theorem series_accumulation_max_witness :
    (∀ b ∈ ([("cpu|f1", [1, 5]), ("mem|f1", [2]), ("cpu|f2", [3])] : List (String × List Int)),
      b.2 ≠ []) ∧
    ((∃ r', applyBlocks (fun k => k.takeWhile (fun c => c ≠ '|'))
        (newOldSeriesRule 0 .stdout (.text ⟨false, ""⟩))
        [("cpu|f1", [1, 5]), ("mem|f1", [2]), ("cpu|f2", [3])] = some r' ∧
      lookupTs r'.series "cpu" =
        listMaxOpt (candTs (fun k => k.takeWhile (fun c => c ≠ '|'))
          [("cpu|f1", [1, 5]), ("mem|f1", [2]), ("cpu|f2", [3])] "cpu")) ∧
    (∀ (r : OldSeriesRule) (key : String) (vs : List Int) (r' : OldSeriesRule)
        (res : ApplyResult),
      r.Apply (fun k => k.takeWhile (fun c => c ≠ '|')) key vs = some (r', res) →
      ∀ v, lookupTs r.series "cpu" = some v →
        ∃ v', lookupTs r'.series "cpu" = some v' ∧ v ≤ v')) :=
  ⟨by decide,
    series_accumulation_max (fun k => k.takeWhile (fun c => c ≠ '|'))
      [("cpu|f1", [1, 5]), ("mem|f1", [2]), ("cpu|f2", [3])] "cpu" 0 .stdout
      (.text ⟨false, ""⟩) (by decide)⟩

/-- C3: read-only contract — on every non-empty value block, `Apply`
returns exactly `(nil, nil, nil)`: no rewritten key, no rewritten values,
no error. -/
theorem apply_read_only (decode : String → String) (r : OldSeriesRule) (key : String)
    (values : List Int) (h : values ≠ []) :
    ∃ r', r.Apply decode key values = some (r', (none, none, none)) := by
  cases hl : values.getLast? with
  | none => exact absurd (List.getLast?_eq_none_iff.1 hl) h
  | some m => exact ⟨_, apply_eq decode r key values m hl⟩

theorem apply_read_only_witness :
    (([3, 7] : List Int) ≠ []) ∧
    (∃ r', (newOldSeriesRule 0 .stdout (.text ⟨false, ""⟩)).Apply (fun k => k) "cpu.load" [3, 7]
      = some (r', (none, none, none))) :=
  ⟨by decide,
    apply_read_only (fun k => k) (newOldSeriesRule 0 .stdout (.text ⟨false, ""⟩))
      "cpu.load" [3, 7] (by decide)⟩

/-- C8: safety of the last-element access — for every non-empty value
block the access `values[len(values)-1]` is in bounds and `Apply`
completes (returns `some`), while on the empty block `Apply` reaches the
out-of-bounds branch (the panic, modelled as `none`): there is no
emptiness guard. -/
theorem apply_last_access_safety (decode : String → String) (r : OldSeriesRule)
    (key : String) (values : List Int) :
    (values ≠ [] → (r.Apply decode key values).isSome = true) ∧
    r.Apply decode key [] = none := by
  refine ⟨fun h => ?_, rfl⟩
  cases hl : values.getLast? with
  | none => exact absurd (List.getLast?_eq_none_iff.1 hl) h
  | some m =>
    rw [apply_eq decode r key values m hl]
    rfl

theorem apply_last_access_safety_witness :
    (([2] : List Int) ≠ []) ∧
    ((newOldSeriesRule 0 .stdout (.text ⟨false, ""⟩)).Apply (fun k => k) "s" [2]).isSome
      = true ∧
    (newOldSeriesRule 0 .stdout (.text ⟨false, ""⟩)).Apply (fun k => k) "s" [] = none :=
  ⟨by decide,
    (apply_last_access_safety (fun k => k)
      (newOldSeriesRule 0 .stdout (.text ⟨false, ""⟩)) "s" [2]).1 (by decide),
    (apply_last_access_safety (fun k => k)
      (newOldSeriesRule 0 .stdout (.text ⟨false, ""⟩)) "s" [2]).2⟩

/-- C10: write errors are swallowed — the text formatter's `format`
returns `nil` whatever the destination write's outcome `wr` is, and the
whole terminal report (reported pairs, counts, summary line, and even the
bytes handed to the destination) is the same function of the state for
every assignment of write outcomes: a failed write alters nothing. -/
theorem write_errors_swallowed (g : Int → String → String) (f : TextFormater)
    (wr : Option String) (serie : String) (timestamp : Int)
    (r : OldSeriesRule) (wr1 wr2 : Nat → Option String) :
    (TextFormater.format g f wr serie timestamp).2 = none ∧
    (r.End g wr1).emitted = (r.End g wr2).emitted ∧
    (r.End g wr1).count = (r.End g wr2).count ∧
    (r.End g wr1).total = (r.End g wr2).total ∧
    (r.End g wr1).logLine = (r.End g wr2).logLine ∧
    (r.End g wr1).outText = (r.End g wr2).outText := by
  refine ⟨rfl, rfl, rfl, rfl, rfl, ?_⟩
  rw [end_outText, end_outText]
  refine congrArg String.join (List.map_congr_left fun p _ => ?_)
  cases r.formater <;> rfl

/-- C2: terminal report guarantee — after a run of `Apply` calls on a
fresh rule with threshold `thr`, `End` emits the series in strictly
ascending lexicographic order; a pair `(S, t)` is emitted iff `t` is the
accumulated timestamp of `S` and `t ≤ thr` (so `lastSeen = thr` is
reported and `lastSeen = thr + 1` is not); and the total used in the
summary is the number of distinct decoded series observed across all
`Apply` calls. -/
theorem end_report_guarantee (decode : String → String) (g : Int → String → String)
    (wr : Nat → Option String) (bs : List (String × List Int)) (thr : Int) (o : OutDest)
    (F : Formater) (S : String) (t : Int) (r' : OldSeriesRule)
    (hne : ∀ b ∈ bs, b.2 ≠ [])
    (hrun : applyBlocks decode (newOldSeriesRule thr o F) bs = some r') :
    ((r'.End g wr).emitted.map Prod.fst).Sorted (· < ·) ∧
    ((S, t) ∈ (r'.End g wr).emitted ↔ (lookupTs r'.series S = some t ∧ t ≤ thr)) ∧
    (r'.End g wr).total = (bs.map (fun b => decode b.1)).toFinset.card := by
  obtain ⟨h1, -, -, -, h5, h6⟩ := applyBlocks_spec decode bs _ r' hrun
  have hnd : (r'.series.map Prod.fst).Nodup := h5 (by simp [newOldSeriesRule])
  refine ⟨end_emitted_sorted g wr r' hnd, ?_, ?_⟩
  · rw [mem_end_emitted_iff, h1]
    rw [show (newOldSeriesRule thr o F).unixNano = thr from rfl]
  · have hobs : (r'.series.map Prod.fst).toFinset = (bs.map (fun b => decode b.1)).toFinset := by
      rw [h6]
      simp [newOldSeriesRule]
    rw [end_total, ← List.length_map r'.series Prod.fst,
      ← List.toFinset_card_of_nodup hnd, hobs]

theorem end_report_guarantee_witness :
    (∀ b ∈ ([("b", [5]), ("a", [3]), ("c", [10])] : List (String × List Int)), b.2 ≠ []) ∧
    applyBlocks (fun k => k) (newOldSeriesRule 5 .stdout (.text ⟨false, ""⟩))
      [("b", [5]), ("a", [3]), ("c", [10])]
      = some ⟨5, .stdout, [("b", 5), ("a", 3), ("c", 10)], .text ⟨false, ""⟩⟩ ∧
    ((((⟨5, .stdout, [("b", 5), ("a", 3), ("c", 10)], .text ⟨false, ""⟩⟩ : OldSeriesRule).End
        (fun _ _ => "") (fun _ => none)).emitted.map Prod.fst).Sorted (· < ·) ∧
    (("a", (3 : Int)) ∈
        ((⟨5, .stdout, [("b", 5), ("a", 3), ("c", 10)], .text ⟨false, ""⟩⟩ : OldSeriesRule).End
          (fun _ _ => "") (fun _ => none)).emitted ↔
      (lookupTs [("b", 5), ("a", 3), ("c", 10)] "a" = some 3 ∧ (3 : Int) ≤ 5)) ∧
    ((⟨5, .stdout, [("b", 5), ("a", 3), ("c", 10)], .text ⟨false, ""⟩⟩ : OldSeriesRule).End
        (fun _ _ => "") (fun _ => none)).total
      = (([("b", [5]), ("a", [3]), ("c", [10])] : List (String × List Int)).map
          (fun b => (fun k => k) b.1)).toFinset.card) :=
  ⟨by decide, by decide,
    end_report_guarantee (fun k => k) (fun _ _ => "") (fun _ => none)
      [("b", [5]), ("a", [3]), ("c", [10])] 5 .stdout (.text ⟨false, ""⟩) "a" 3
      ⟨5, .stdout, [("b", 5), ("a", 3), ("c", 10)], .text ⟨false, ""⟩⟩
      (by decide) (by decide)⟩

/-- C4 counterexample: at a state with series `a` (timestamp 0, stale) and
`b` (timestamp 1, fresh) under threshold 0, the summary log line is
`"Detected 1/2 series as old"`; the claim's text `"Detected 1/2 series as
old."`, with a trailing period, is not the emitted text (the Go format
string `"Detected %d/%d series as old"` has no trailing period). -/
theorem end_summary_counterexample :
    ((⟨0, .stdout, [("a", 0), ("b", 1)], .text ⟨false, ""⟩⟩ : OldSeriesRule).End
        (fun _ _ => "") (fun _ => none)).logLine = "Detected 1/2 series as old" ∧
    ((⟨0, .stdout, [("a", 0), ("b", 1)], .text ⟨false, ""⟩⟩ : OldSeriesRule).End
        (fun _ _ => "") (fun _ => none)).logLine ≠ "Detected 1/2 series as old." :=
  ⟨by decide, by decide⟩

/-- C4 amended: `End` emits exactly one summary log line whose text is
`"Detected M/N series as old"` (no trailing period), where `M` is the
number of accumulated series with timestamp at most the threshold and `N`
is the number of accumulated (distinct) series; the line is a field of its
own, separate from the formatted output stream, which consists solely of
the formatter's lines for the emitted series. -/
theorem end_summary_line (g : Int → String → String) (wr : Nat → Option String)
    (r : OldSeriesRule) (hnd : (r.series.map Prod.fst).Nodup) :
    (r.End g wr).logLine =
      "Detected "
        ++ toString (r.series.filter (fun p => decide (p.2 ≤ r.unixNano))).length
        ++ "/" ++ toString r.series.length ++ " series as old" ∧
    (r.End g wr).outText = String.join ((r.End g wr).emitted.enum.map
      (fun p => (Formater.format g r.formater (wr p.1) p.2.1 p.2.2).1)) := by
  refine ⟨?_, end_outText g wr r⟩
  rw [end_logLine, end_count g wr r hnd, end_total]

theorem end_summary_line_witness :
    ((([("a", 0), ("b", 1)] : List (String × Int)).map Prod.fst).Nodup) ∧
    ((⟨0, .stdout, [("a", 0), ("b", 1)], .text ⟨false, ""⟩⟩ : OldSeriesRule).End
        (fun _ _ => "") (fun _ => none)).logLine =
      "Detected "
        ++ toString (([("a", 0), ("b", 1)] : List (String × Int)).filter
            (fun p => decide (p.2 ≤ (0 : Int)))).length
        ++ "/" ++ toString ([("a", 0), ("b", 1)] : List (String × Int)).length
        ++ " series as old" :=
  ⟨by decide,
    (end_summary_line (fun _ _ => "") (fun _ => none)
      ⟨0, .stdout, [("a", 0), ("b", 1)], .text ⟨false, ""⟩⟩ (by decide)).1⟩

/-- C5 counterexample: with layout `"RFC3339"` the renderer uses Go's
`time.RFC3339` layout, which has second precision.  At timestamp 1 (one
nanosecond past the epoch) the rendered text carries no fractional-second
digits, while the spec's "RFC 3339 at nanosecond precision" rendering
does: the two differ, refuting "nanosecond precision". -/
theorem rfc3339_precision_counterexample :
    formatTimestamp (fun _ _ => "") 1 "RFC3339" = "1970-01-01T00:00:00Z" ∧
    rfc3339NanoSpecUTC 1 = "1970-01-01T00:00:00.000000001Z" ∧
    formatTimestamp (fun _ _ => "") 1 "RFC3339" ≠ rfc3339NanoSpecUTC 1 :=
  ⟨by decide, by decide, by decide⟩

/-- C5 amended: whenever the layout equals `"RFC3339"` under
case-insensitive comparison, the renderer formats the timestamp with Go's
`time.RFC3339` layout — RFC 3339 at second precision, in the (UTC) zone of
the converted time value; in particular the text formatter with timestamps
enabled emits `"cpu.load: 1970-01-01T00:00:00Z\n"` for series `"cpu.load"`
at timestamp 0. -/
theorem rfc3339_rendering (g : Int → String → String) (layout : String) (ts : Int)
    (h : eqFoldAscii layout "RFC3339" = true) :
    formatTimestamp g ts layout = rfc3339UTC ts ∧
    textLine g ⟨true, layout⟩ "cpu.load" 0 = "cpu.load: 1970-01-01T00:00:00Z\n" := by
  have hne : layout ≠ "" := by
    intro hc
    subst hc
    exact absurd h (by decide)
  have hfmt : ∀ u : Int, formatTimestamp g u layout = rfc3339UTC u := by
    intro u
    unfold formatTimestamp
    rw [if_neg hne, if_pos h]
  refine ⟨hfmt ts, ?_⟩
  show "cpu.load" ++ ": " ++ formatTimestamp g 0 layout ++ "\n"
    = "cpu.load: 1970-01-01T00:00:00Z\n"
  rw [hfmt 0, show rfc3339UTC 0 = "1970-01-01T00:00:00Z" from by decide]
  decide

theorem rfc3339_rendering_witness :
    eqFoldAscii "rfc3339" "RFC3339" = true ∧
    (formatTimestamp (fun _ _ => "") 123 "rfc3339" = rfc3339UTC 123 ∧
      textLine (fun _ _ => "") ⟨true, "rfc3339"⟩ "cpu.load" 0
        = "cpu.load: 1970-01-01T00:00:00Z\n") :=
  ⟨by decide, rfc3339_rendering (fun _ _ => "") "rfc3339" 123 (by decide)⟩

/-- C6 counterexample: at timestamp 1114112 (one past the largest Unicode
code point) the empty-layout rendering is the replacement character
U+FFFD, and no character whose code point equals the timestamp exists, so
the claim "a single character whose code point equals the numeric
timestamp value" fails at this input (every realistic nanosecond
timestamp is far outside the valid code-point range). -/
theorem legacy_layout_counterexample :
    formatTimestamp (fun _ _ => "") 1114112 "" = String.singleton (Char.ofNat 0xFFFD) ∧
    ¬ ∃ c : Char, formatTimestamp (fun _ _ => "") 1114112 "" = String.singleton c ∧
        c.toNat = 1114112 := by
  refine ⟨by decide, ?_⟩
  rintro ⟨c, -, hc⟩
  have hv : c.toNat < 0xd800 ∨ (0xdfff < c.toNat ∧ c.toNat < 0x110000) := c.valid
  omega

/-- C6 amended: with the empty layout the renderer always returns a string
of exactly one character; when the timestamp is a valid Unicode code point
(`0 ≤ n`, not a surrogate, at most U+10FFFF) that character's code point
equals the timestamp value, and otherwise it is the replacement character
U+FFFD. -/
theorem legacy_layout_rendering (g : Int → String → String) (n : Int) :
    (formatTimestamp g n "").length = 1 ∧
    (goValidRune n → formatTimestamp g n "" = String.singleton (Char.ofNat n.toNat) ∧
      (Char.ofNat n.toNat).toNat = n.toNat) ∧
    (¬ goValidRune n → formatTimestamp g n "" = String.singleton (Char.ofNat 0xFFFD)) := by
  have hfmt : formatTimestamp g n "" = goIntToString n := by
    unfold formatTimestamp
    rw [if_pos rfl]
  refine ⟨?_, fun hv => ?_, fun hv => ?_⟩
  · rw [hfmt]
    unfold goIntToString
    split <;> rfl
  · refine ⟨by rw [hfmt]; unfold goIntToString; rw [if_pos hv], ?_⟩
    unfold goValidRune at hv
    have hvn : n.toNat.isValidChar := by
      unfold Nat.isValidChar
      obtain ⟨h0, h1 | ⟨h2, h3⟩⟩ := hv
      · exact Or.inl (by omega)
      · exact Or.inr ⟨by omega, by omega⟩
    simp [Char.ofNat, hvn, Char.ofNatAux, Char.toNat, UInt32.toNat, BitVec.toNat_ofNatLt]
  · rw [hfmt]
    unfold goIntToString
    rw [if_neg hv]

theorem legacy_layout_rendering_witness :
    goValidRune 65 ∧
    (formatTimestamp (fun _ _ => "") 65 "" = String.singleton (Char.ofNat (65 : Int).toNat) ∧
      (Char.ofNat (65 : Int).toNat).toNat = (65 : Int).toNat) :=
  ⟨by decide, (legacy_layout_rendering (fun _ _ => "") 65).2.1 (by decide)⟩

/-- C7: fail-fast formatter construction — with the external time parse
and output selection succeeding, `Build` with a format name outside
`"text"`/`"json"` fails at construction time with the unknown-format
error (no rule is constructed, so no `Apply` or `format` call is ever
possible on it); an empty `Format` field defaults to `"text"`; and for the
two accepted names construction succeeds. -/
theorem build_format_fail_fast (parseTime : String → Except String Int)
    (createFile : String → Except String Unit) (c : OldSerieRuleConfig)
    (t : Int) (o : OutDest)
    (hpt : parseTime c.Time = .ok t)
    (hout : outSelect createFile c.Out = .ok o) :
    ((c.Format ≠ "" ∧ c.Format ≠ "text" ∧ c.Format ≠ "json") →
      c.Build parseTime createFile = .error ("Unknown format " ++ c.Format)) ∧
    (c.Format = "" →
      c.Build parseTime createFile =
        .ok (newOldSeriesRule t o (.text ⟨c.Timestamp, c.TimestampLayout⟩))) ∧
    ((c.Format = "text" ∨ c.Format = "json") →
      ∃ r, c.Build parseTime createFile = .ok r) := by
  have hb : c.Build parseTime createFile =
      match newFormater (if c.Format ≠ "" then c.Format else "text")
          c.Timestamp c.TimestampLayout with
      | .error e => .error e
      | .ok f => .ok (newOldSeriesRule t o f) := by
    unfold OldSerieRuleConfig.Build
    rw [hpt, hout]
  refine ⟨fun hf => ?_, fun hf => ?_, fun hf => ?_⟩
  · obtain ⟨hf1, hf2, hf3⟩ := hf
    rw [hb, if_pos hf1]
    unfold newFormater
    rw [if_neg hf2, if_neg hf3]
  · rw [hb, hf]
    rw [show (if ("" : String) ≠ "" then ("" : String) else "text") = "text" from by decide]
    unfold newFormater
    rw [if_pos rfl]
  · rcases hf with hf | hf
    · refine ⟨newOldSeriesRule t o (.text ⟨c.Timestamp, c.TimestampLayout⟩), ?_⟩
      rw [hb, hf]
      rw [show (if ("text" : String) ≠ "" then ("text" : String) else "text")
          = "text" from by decide]
      unfold newFormater
      rw [if_pos rfl]
    · refine ⟨newOldSeriesRule t o (.json ⟨c.Timestamp, c.TimestampLayout⟩), ?_⟩
      rw [hb, hf]
      rw [show (if ("json" : String) ≠ "" then ("json" : String) else "text")
          = "json" from by decide]
      unfold newFormater
      rw [show (if ("json" : String) = "text" then
            (Except.ok (Formater.text ⟨c.Timestamp, c.TimestampLayout⟩) : Except String Formater)
          else if ("json" : String) = "json" then
            .ok (.json ⟨c.Timestamp, c.TimestampLayout⟩)
          else .error ("Unknown format " ++ "json"))
        = .ok (.json ⟨c.Timestamp, c.TimestampLayout⟩) from by
          rw [if_neg (by decide), if_pos rfl]]

theorem build_format_fail_fast_witness :
    ((fun _ : String => (Except.ok (0 : Int) : Except String Int)) "2020-01-01T00:00:00Z"
      = .ok 0) ∧
    outSelect (fun _ => .ok ()) "" = .ok .stdout ∧
    (⟨"2020-01-01T00:00:00Z", "", "xml", false, ""⟩ : OldSerieRuleConfig).Build
        (fun _ => .ok 0) (fun _ => .ok ())
      = .error ("Unknown format " ++ "xml") :=
  ⟨rfl, rfl,
    (build_format_fail_fast (fun _ => .ok 0) (fun _ => .ok ())
      ⟨"2020-01-01T00:00:00Z", "", "xml", false, ""⟩ 0 .stdout rfl rfl).1
      ⟨by decide, by decide, by decide⟩⟩

/-- C9: JSON output determinism — marshalling sorts the field set by key,
so the line is one fixed string independent of the Go map's iteration
order (both iteration orders of the two-field set marshal identically);
with timestamps enabled the emitted object lists `"Serie"` before
`"Timestamp"`; and the `format` call returns an error only where
marshalling could fail, which for these string-valued fields is never:
the returned error is always `nil`. -/
theorem json_format_deterministic (g : Int → String → String) (f : JsonFormater)
    (wr : Option String) (serie : String) (ts : Int) (a b : String)
    (hw : f.withTimestamp = true) :
    jsonMarshalObject [("Serie", a), ("Timestamp", b)]
      = jsonMarshalObject [("Timestamp", b), ("Serie", a)] ∧
    (JsonFormater.format g f wr serie ts).1
      = "\x7b" ++ jsonQuote "Serie" ++ ":" ++ jsonQuote serie
        ++ "," ++ jsonQuote "Timestamp" ++ ":"
        ++ jsonQuote (formatTimestamp g ts f.timestampLayout) ++ "\x7d" ++ "\n" ∧
    (JsonFormater.format g f wr serie ts).2 = none := by
  have h1 : ∀ x y : String, keyLe ("Serie", x) ("Timestamp", y) :=
    fun x y => show strLe "Serie" "Timestamp" from by decide
  have h2 : ∀ x y : String, ¬ keyLe ("Timestamp", x) ("Serie", y) :=
    fun x y => show ¬ strLe "Timestamp" "Serie" from by decide
  refine ⟨?_, ?_, rfl⟩
  · simp [jsonMarshalObject, List.insertionSort, List.orderedInsert, h1 a b, h2 b a]
  · show jsonMarshalObject (jsonData g f serie ts) ++ "\n" = _
    rw [show jsonData g f serie ts
        = [("Serie", serie), ("Timestamp", formatTimestamp g ts f.timestampLayout)] from by
      unfold jsonData
      rw [if_pos hw]]
    rw [show jsonMarshalObject
          [("Serie", serie), ("Timestamp", formatTimestamp g ts f.timestampLayout)]
        = "\x7b" ++ (jsonQuote "Serie" ++ ":" ++ jsonQuote serie
          ++ "," ++ (jsonQuote "Timestamp" ++ ":"
            ++ jsonQuote (formatTimestamp g ts f.timestampLayout))) ++ "\x7d" from by
      simp [jsonMarshalObject, List.insertionSort, List.orderedInsert,
        h1 serie (formatTimestamp g ts f.timestampLayout), joinComma]]
    apply String.toList_inj.1
    show (_ : String).data = (_ : String).data
    simp only [show ∀ x y : String, (x ++ y).data = x.data ++ y.data from fun x y => rfl,
      List.append_assoc]

theorem json_format_deterministic_witness :
    (⟨true, "RFC3339"⟩ : JsonFormater).withTimestamp = true ∧
    (jsonMarshalObject [("Serie", "x"), ("Timestamp", "y")]
      = jsonMarshalObject [("Timestamp", "y"), ("Serie", "x")] ∧
    (JsonFormater.format (fun _ _ => "") ⟨true, "RFC3339"⟩ none "cpu.load" 0).1
      = "\x7b" ++ jsonQuote "Serie" ++ ":" ++ jsonQuote "cpu.load"
        ++ "," ++ jsonQuote "Timestamp" ++ ":"
        ++ jsonQuote (formatTimestamp (fun _ _ => "") 0
            (⟨true, "RFC3339"⟩ : JsonFormater).timestampLayout) ++ "\x7d" ++ "\n" ∧
    (JsonFormater.format (fun _ _ => "") ⟨true, "RFC3339"⟩ none "cpu.load" 0).2 = none) :=
  ⟨rfl, json_format_deterministic (fun _ _ => "") ⟨true, "RFC3339"⟩ none "cpu.load" 0
    "x" "y" rfl⟩

end OldSeriesRules
